import Mathlib

/-!
Verification of the jr_writer concurrent file-writer package (writer.go,
default_writer.go) against its specification.

The Go code is shallowly embedded as follows:

* An open file handle (a non-nil C-style pointer to os.File) is a `FileH`
  record carrying the file name together with an oracle of how the OS behaves
  on it: whether Stat() succeeds (liveness) and what Close() returns.
* Go's nil-able pointers become `Option`: a `*os.File` is `Option FileH`,
  a `*[]*os.File` is `Option (List (Option FileH))`, a `*string` is
  `Option String`, a `*Mode` is `Option ModeM`, a nil-able `*Writer`
  receiver is `Option WriterM`.
* The two `sync.Map`s (openFilesPool keyed by name, connLastUsed keyed by
  name) become association lists `List (String × _)`; Store/Load/Delete are
  `storeA`/`lookupA`/`eraseA`, and `Range` iterates in list order.
  `time.Now()` becomes a strictly increasing logical clock (a `Nat` counter
  in the writer state), so later stores carry larger timestamps.
* Go runtime panics (nil-pointer dereference, failed type assertion) are a
  distinguished `Outcome.crash` result, distinct from a returned `error`;
  returned errors are `Option String` / `Except String _` values.
* OS side effects inside writeToFile (os.OpenFile, buffered WriteString,
  Flush) are supplied by an `OSOracle`, indexed by file name and by the
  retry-attempt number, so that any pattern of transient failures can be
  expressed.
* The worker pool of Write is modeled by sequential processing of the job
  queue: the per-job counter updates are commutative and each job is
  processed by exactly one worker, so the aggregate counts proved here are
  exactly those of every concurrent schedule.  `runtime.NumCPU()` is a
  parameter `ncpu`.
-/

namespace JrWriter

/-- Result of Go's `file.Close()` as seen by the writer's pool code:
success, an error whose text contains "file already closed", or a genuine
close failure. -/
inductive CloseRes where
  | ok : CloseRes
  | alreadyClosed : CloseRes
  | genuineErr : CloseRes
deriving DecidableEq, Repr

/-- An open file handle (`*os.File` that is not nil).  `statOk` tells
whether `Stat()` currently succeeds on the handle (the liveness probe used
by GetConn / CheckConnStatus / CloseAllConns); `closeRes` tells what
`Close()` returns. -/
structure FileH where
  name : String
  statOk : Bool
  closeRes : CloseRes
deriving DecidableEq, Repr

/-- The `Mode` struct: a nil-able pointer to the mode string. -/
structure ModeM where
  mode : Option String
deriving DecidableEq, Repr

/-- Association-list lookup, modeling `sync.Map.Load`. -/
def lookupA {α : Type} : List (String × α) → String → Option α
  | [], _ => none
  | p :: rest, k => if p.1 = k then some p.2 else lookupA rest k

/-- Association-list delete, modeling `sync.Map.Delete`. -/
def eraseA {α : Type} : List (String × α) → String → List (String × α)
  | [], _ => []
  | p :: rest, k => if p.1 = k then eraseA rest k else p :: eraseA rest k

/-- Association-list store, modeling `sync.Map.Store`: update in place when
the key is present, append otherwise. -/
def storeA {α : Type} (l : List (String × α)) (k : String) (v : α) : List (String × α) :=
  if (lookupA l k).isSome then l.map (fun p => if p.1 = k then (k, v) else p)
  else l ++ [(k, v)]

/-- The key set of an association list. -/
def keysA {α : Type} (l : List (String × α)) : List String :=
  l.map Prod.fst

/-- The `Writer` struct.  Mutexes are omitted (the embedding is sequential);
`ctx` is represented by whether it is already cancelled, and `clock` is the
logical time used for `connLastUsed` timestamps. -/
structure WriterM where
  files : Option (List (Option FileH))
  mode : Option ModeM
  message : Option String
  maxConns : Nat
  retries : Nat
  backoff : Nat
  ctxCancelled : Bool
  pool : List (String × FileH)
  lastUsed : List (String × Nat)
  clock : Nat
deriving DecidableEq, Repr

/-- The `Results` struct.  `SuccessRate`/`FailureRate` are Go float64 fields
and are not part of the embedding (see the status of the rate claim);
`ErrSlice` keeps the error strings, `Info` the per-file diagnostic map. -/
structure ResultsM where
  total : Nat
  errSlice : List String
  success : Nat
  failure : Nat
  info : List (String × String)
deriving DecidableEq, Repr

/-- `NewResults`: all counters zero, containers empty. -/
def newResultsM : ResultsM :=
  { total := 0, errSlice := [], success := 0, failure := 0, info := [] }

/-- Outcome of running a piece of Go code: either it crashes the program
(runtime panic: nil dereference, failed type assertion) or it finishes
normally with a value. -/
inductive Outcome (α : Type) where
  | crash : String → Outcome α
  | ok : α → Outcome α
deriving Repr, DecidableEq

def Outcome.bind {α β : Type} : Outcome α → (α → Outcome β) → Outcome β
  | .crash m, _ => .crash m
  | .ok a, f => f a

instance : Monad Outcome where
  pure := Outcome.ok
  bind := Outcome.bind

/-- `fullWriteCheck` (writer.go): nil checks on the receiver and on the
files / mode / message fields, returning the first error. -/
def fullWriteCheck (w : Option WriterM) : Option String :=
  match w with
  | none => some "writer is nil"
  | some w =>
    if w.files.isNone then some "files is nil"
    else if w.mode.isNone then some "mode is nil"
    else if w.message.isNone then some "message is nil"
    else none

/-- First strictly-minimal entry of the `connLastUsed` scan in GetConn:
`oldestFile` starts empty and is replaced only when `lastUsed.Before(oldestTime)`,
so the first entry with the least timestamp wins. -/
def foldMin (l : List (String × Nat)) : Option (String × Nat) :=
  l.foldl (fun acc p =>
    match acc with
    | none => some p
    | some q => if p.2 < q.2 then some p else some q) none

/-- Name of the least-recently-used entry found by GetConn's eviction scan. -/
def oldestEntry (l : List (String × Nat)) : Option String :=
  (foldMin l).map Prod.fst

/-- The tail of `GetConn` for a target that is not (or no longer) pooled:
count the pool, evict the least-recently-used entry when at capacity
(closing it), then store the new connection with a fresh timestamp. -/
def getConnAdmit (w : WriterM) (f : FileH) : FileH × WriterM :=
  let count := w.pool.length
  let w1 :=
    if w.maxConns ≤ count then
      match oldestEntry w.lastUsed with
      | some oldestFile =>
        if (lookupA w.pool oldestFile).isSome then
          { w with pool := eraseA w.pool oldestFile,
                   lastUsed := eraseA w.lastUsed oldestFile }
        else w
      | none => w
    else w
  (f, { w1 with pool := storeA w1.pool f.name f,
                lastUsed := storeA w1.lastUsed f.name w1.clock,
                clock := w1.clock + 1 })

/-- `GetConn` (writer.go): nil check; pooled-and-usable handles are returned
with a refreshed timestamp; an unusable pooled handle is dropped from both
maps; otherwise the handle is admitted, evicting the LRU entry when the pool
is at capacity. -/
def getConn (w : WriterM) (file : Option FileH) : Except String (FileH × WriterM) :=
  match file with
  | none => .error "nil file pointer received"
  | some f =>
    match lookupA w.pool f.name with
    | some g =>
      if g.statOk then
        .ok (g, { w with lastUsed := storeA w.lastUsed f.name w.clock,
                         clock := w.clock + 1 })
      else
        .ok (getConnAdmit
          { w with pool := eraseA w.pool f.name,
                   lastUsed := eraseA w.lastUsed f.name } f)
    | none => .ok (getConnAdmit w f)

/-- Sequential sequence of `GetConn` acquisitions, threading the writer
state (a nil-file error leaves the state unchanged). -/
def runGetConns (w : WriterM) (inputs : List (Option FileH)) : WriterM :=
  inputs.foldl (fun w file =>
    match getConn w file with
    | .error _ => w
    | .ok (_, w') => w') w

/-- A freshly constructed writer (`NewWriter`) with the given pool capacity:
empty pool, empty last-used index, background (non-cancelled) context. -/
def freshWriter (maxConns : Nat) : WriterM :=
  { files := some [], mode := some { mode := some "a" }, message := some "",
    maxConns := maxConns, retries := 0, backoff := 0, ctxCancelled := false,
    pool := [], lastUsed := [], clock := 0 }

/-- The effective batch size computed at the top of `batcher` (writer.go):
a non-positive requested size defaults to `len/numCPU`, floored to 1. -/
def effBatchSize (len ncpu : Nat) (batchSize : Int) : Nat :=
  if batchSize ≤ 0 then
    let d := len / ncpu
    if d = 0 then 1 else d
  else batchSize.toNat

/-- `batcher` (writer.go): batch size defaulting, then fixed-stride
contiguous slices `files[i*bs : min((i+1)*bs, len)]`. -/
def batcherM {α : Type} (files : List α) (ncpu : Nat) (batchSize : Int) : List (List α) :=
  let bs := effBatchSize files.length ncpu batchSize
  let numFiles := files.length
  let numBatches := (numFiles + bs - 1) / bs
  (List.range numBatches).map (fun i => (files.drop (i * bs)).take bs)

/-- Trace of one `retry` run: the returned error (none on success), the
final threaded state, the list of backoff delays actually slept (ms, in
order), and the number of times the wrapped operation was invoked. -/
structure RetryTrace (σ : Type) where
  err : Option String
  state : σ
  delays : List Nat
  calls : Nat
deriving Repr

/-- One step of the backoff update in `retry`: `if backoff < 1000 { backoff *= 2 }`. -/
def backoffStep (b : Nat) : Nat :=
  if b < 1000 then b * 2 else b

/-- The `for i := tries; i > 0; i--` loop of `retry` (writer.go): invoke the
operation; return nil on success; on the last iteration wrap the error; on
earlier iterations sleep `backoff` ms, then double `backoff` when it is
still below 1000.  The operation is indexed by the attempt number `k` and
threads a state `σ` (the writer pool plus the results record), and may
crash (the program panicking inside the attempt). -/
def retryLoop {σ : Type} (f : Nat → σ → Outcome (Option String × σ)) :
    Nat → Nat → Nat → σ → Outcome (RetryTrace σ)
  | _, _, 0, s => .ok { err := none, state := s, delays := [], calls := 0 }
  | k, backoff, i + 1, s => do
    let (err?, s') ← f k s
    match err? with
    | none => pure { err := none, state := s', delays := [], calls := 1 }
    | some e =>
      if i = 0 then
        pure { err := some ("exhausted retries: last error: " ++ e),
               state := s', delays := [], calls := 1 }
      else do
        let r ← retryLoop f (k + 1) (backoffStep backoff) i s'
        pure { err := r.err, state := r.state,
               delays := backoff :: r.delays, calls := r.calls + 1 }

/-- `retry` (writer.go): with `retries == 0` the operation runs exactly once
and its raw error is returned; otherwise the loop above runs. -/
def retryGo {σ : Type} (retries backoff : Nat)
    (f : Nat → σ → Outcome (Option String × σ)) (s : σ) : Outcome (RetryTrace σ) :=
  if retries = 0 then do
    let (err?, s') ← f 0 s
    pure { err := err?, state := s', delays := [], calls := 1 }
  else retryLoop f 0 backoff retries s

/-- Lift a crash-free operation into the retry wrapper's argument type. -/
def pureOp {σ : Type} (g : Nat → σ → Option String × σ) :
    Nat → σ → Outcome (Option String × σ) :=
  fun k s => .ok (g k s)

/-- Run `retry` on a crash-free operation and extract the trace (a crash
never happens for such operations; the default branch is dead). -/
def runRetry {σ : Type} (retries backoff : Nat)
    (g : Nat → σ → Option String × σ) (s : σ) : RetryTrace σ :=
  match retryGo retries backoff (pureOp g) s with
  | .ok t => t
  | .crash _ => { err := none, state := s, delays := [], calls := 0 }

/-- `getFileMode` (writer.go): maps the validated mode string to an OS open
flag; anything other than "a" or "w" is an error. -/
def getFileModeM (modeStr : String) : Except String Unit :=
  if modeStr = "a" then .ok ()
  else if modeStr = "w" then .ok ()
  else .error ("invalid mode: " ++ modeStr)

/-- `CheckConnStatus` (writer.go) for a non-nil file: pooled under its name
and still passing the Stat liveness probe. -/
def checkConnStatusM (w : WriterM) (f : FileH) : Bool :=
  match lookupA w.pool f.name with
  | some g => g.statOk
  | none => false

/-- Behavior of the OS during one write attempt, indexed by file name and
attempt number: result of os.OpenFile (none = open error), of the buffered
WriteString and of Flush (some = the error text). -/
structure OSOracle where
  openFile : String → Nat → Option FileH
  writeRes : String → Nat → Option String
  flushRes : String → Nat → Option String

/-- Mark the pooled handle under `name` as closed (Stat will now fail):
the effect of `file.Close()` on a handle that stays in the pool. -/
def closeInPool (w : WriterM) (name : String) : WriterM :=
  match lookupA w.pool name with
  | some g => { w with pool := storeA w.pool name { g with statOk := false } }
  | none => w

/-- `writeToFile` (writer.go), one attempt: context check; nil-file check;
`*w.mode.mode` dereference (a nil `mode` pointer or nil inner string is a
runtime panic); mode-flag resolution; reopen-if-not-live with pool update
(note: this Store does not touch connLastUsed, exactly as in the source);
buffered write then flush, closing the handle on error (the deferred
cleanup additionally removes a freshly opened handle from the pool).  The
threaded state is the writer (pool) together with the results record.
The message string being written never influences control flow in the
source (only the buffered writer's success does), so it is absorbed into
the oracle's write outcome rather than passed along. -/
def writeToFileM (os : OSOracle) (file : Option FileH) :
    Nat → WriterM × ResultsM → Outcome (Option String × (WriterM × ResultsM))
  | k, (w, res) =>
    if w.ctxCancelled then .ok (some "context canceled", (w, res))
    else match file with
    | none =>
      .ok (some "nil file pointer received",
        (w, { res with info := storeA res.info "nil_file" "received nil file pointer" }))
    | some f =>
      match w.mode with
      | none => .crash "runtime error: invalid memory address or nil pointer dereference"
      | some m =>
        match m.mode with
        | none => .crash "runtime error: invalid memory address or nil pointer dereference"
        | some ms =>
          match getFileModeM ms with
          | .error e => .ok (some e, (w, { res with info := storeA res.info f.name e }))
          | .ok _ =>
            let opened :=
              if checkConnStatusM w f then some (f, w, false)
              else
                match os.openFile f.name k with
                | none => none
                | some nf => some (nf, { w with pool := storeA w.pool f.name nf }, true)
            match opened with
            | none =>
              .ok (some ("error opening file " ++ f.name),
                (w, { res with info := storeA res.info f.name ("error opening file " ++ f.name) }))
            | some (file', w1, isNew) =>
              match os.writeRes f.name k with
              | some e =>
                let w2 := if isNew then { w1 with pool := eraseA w1.pool file'.name }
                          else closeInPool w1 file'.name
                .ok (some ("error writing to file " ++ f.name),
                  (w2, { res with info := storeA res.info f.name e }))
              | none =>
                match os.flushRes f.name k with
                | some e =>
                  let w2 := if isNew then { w1 with pool := eraseA w1.pool file'.name }
                            else closeInPool w1 file'.name
                  .ok (some ("error flushing buffer for file " ++ f.name),
                    (w2, { res with info := storeA res.info f.name e }))
                | none => .ok (none, (w1, res))

/-- The body of a `Write` worker for one job pulled from the channel:
acquire the connection (recording a failure when acquisition errs), else
run `writeToFile` through the retry wrapper and record success or failure. -/
def processJob (os : OSOracle) (retries backoff : Nat)
    (st : WriterM × ResultsM) (file : Option FileH) : Outcome (WriterM × ResultsM) :=
  match getConn st.1 file with
  | .error e =>
    .ok (st.1, { st.2 with errSlice := st.2.errSlice ++ [e],
                           failure := st.2.failure + 1 })
  | .ok (f, w) => do
    let tr ← retryGo retries backoff (writeToFileM os (some f)) (w, st.2)
    match tr.err with
    | some e =>
      pure (tr.state.1, { tr.state.2 with errSlice := tr.state.2.errSlice ++ [e],
                                          failure := tr.state.2.failure + 1 })
    | none =>
      pure (tr.state.1, { tr.state.2 with success := tr.state.2.success + 1 })

/-- `Write` (writer.go).  The entry `select` on `w.ctx.Done()` dereferences
the receiver, so a nil writer crashes before `fullWriteCheck`'s nil guard
can run.  After validation, worker count is normalized (the workers are
modeled by sequential job processing, so the count does not enter the
results), jobs are enqueued either batch-by-batch (more than 1000 targets)
or directly, each job is processed exactly once, and the totals are set
from the target-list length.  The float64 rate fields are outside the
embedding. -/
def WriteM (w? : Option WriterM) (maxWorkers : Int) (ncpu : Nat) (os : OSOracle) :
    Outcome (Except String ResultsM) :=
  match w? with
  | none => .crash "runtime error: invalid memory address or nil pointer dereference"
  | some w =>
    if w.ctxCancelled then .ok (.error "context canceled")
    else match fullWriteCheck (some w) with
    | some e => .ok (.error e)
    | none =>
      let files := w.files.getD []
      if files.length = 0 then .ok (.error "files is empty")
      else
        let workers := if maxWorkers ≤ 0 then (ncpu : Int) else maxWorkers
        let _workers := min workers (files.length : Int)
        let jobs := if 1000 < files.length then (batcherM files ncpu 0).flatten else files
        match jobs.foldlM (processJob os w.retries w.backoff) (w, newResultsM) with
        | .crash m => .crash m
        | .ok (_, res) => .ok (.ok { res with total := files.length })

/-- A dynamically typed value stored in the `map[string]interface{}`
configuration: the concrete types the validator tests for, plus `other`
for a value of any further dynamic type. -/
inductive ConfigVal where
  | files : Option (List (Option FileH)) → ConfigVal
  | mode : Option ModeM → ConfigVal
  | message : Option String → ConfigVal
  | u64 : Nat → ConfigVal
  | other : ConfigVal
deriving DecidableEq, Repr

/-- `validateMap` (writer.go): a nil map is an error; every present entry
must have the expected dynamic type for its key, and an unknown key is an
error.  Note that it never checks that a required key is present. -/
def validateMapM (config : Option (List (String × ConfigVal))) : Option String :=
  match config with
  | none => some "config is nil"
  | some entries =>
    entries.foldr (fun kv acc =>
      let bad : Option String :=
        match kv.1, kv.2 with
        | "files", .files _ => none
        | "files", _ => some "files is not a []*os.File"
        | "mode", .mode _ => none
        | "mode", _ => some "mode is not a *Mode"
        | "message", .message _ => none
        | "message", _ => some "message is not a *string"
        | "retries", .u64 _ => none
        | "retries", _ => some "retries is not a uint64"
        | "backoff", .u64 _ => none
        | "backoff", _ => some "backoff is not a uint64"
        | "maxPool", .u64 _ => none
        | "maxPool", _ => some "maxPool is not a uint64"
        | k, _ => some ("unknown key: " ++ k)
      match bad with
      | some e => some e
      | none => acc) none

/-- A Go map index expression `config[k]`: nil interface when absent. -/
def mapIndex (cfg : List (String × ConfigVal)) (k : String) : Option ConfigVal :=
  lookupA cfg k

/-- `NewWriterFromMap` (writer.go): validate, then build the writer with
unchecked type assertions `config[k].(T)` on each required key.  A missing
key makes the indexed value a nil interface, and the assertion on it is a
runtime panic, not a returned error. -/
def NewWriterFromMapM (config : Option (List (String × ConfigVal))) :
    Outcome (Except String WriterM) :=
  match validateMapM config with
  | some e => .ok (.error e)
  | none =>
    let cfg := config.getD []
    match mapIndex cfg "files", mapIndex cfg "mode", mapIndex cfg "message",
          mapIndex cfg "retries", mapIndex cfg "backoff", mapIndex cfg "maxPool" with
    | some (.files fv), some (.mode mv), some (.message sv),
      some (.u64 r), some (.u64 b), some (.u64 mp) =>
      .ok (.ok { files := fv, mode := mv, message := sv, maxConns := mp,
                 retries := r, backoff := b, ctxCancelled := false,
                 pool := [], lastUsed := [], clock := 0 })
    | _, _, _, _, _, _ => .crash "interface conversion on missing or mistyped key"

/-- One iteration of the `CloseAllConns` loop over the snapshot: an entry
whose Stat already fails is treated as already closed and only removed;
otherwise it is closed, a genuine close failure is collected, and the entry
is removed from both maps regardless. -/
def closeStep (acc : List String × WriterM) (entry : String × FileH) :
    List String × WriterM :=
  let w := acc.2
  let name := entry.1
  let file := entry.2
  if !file.statOk then
    (acc.1, { w with pool := eraseA w.pool name, lastUsed := eraseA w.lastUsed name })
  else
    let errs :=
      match file.closeRes with
      | .genuineErr => acc.1 ++ ["error closing file " ++ name]
      | _ => acc.1
    (errs, { w with pool := eraseA w.pool name, lastUsed := eraseA w.lastUsed name })

/-- `CloseAllConns` (writer.go): snapshot the pool, run the close loop over
it, and return a combined error only when a genuine close failure was
collected ("already closed" is tolerated as success). -/
def closeAllConnsM (w : WriterM) : Option String × WriterM :=
  let snapshot := w.pool
  let out := snapshot.foldl closeStep ([], w)
  (if out.1.isEmpty then none else some "multiple errors closing files", out.2)

/-- `ClearAll` followed by `ClearFiles` (writer.go): fresh empty maps and a
fresh empty (non-nil) files slice. -/
def clearAllAndFilesM (w : WriterM) : WriterM :=
  { w with pool := [], lastUsed := [], files := some [] }

/-- `FactoryReset` (writer.go): run `CloseAllConns`; on error return it at
once (skipping `ClearAll` and `ClearFiles`); on success clear the maps and
the files slice. -/
def factoryResetM (w : WriterM) : Option String × WriterM :=
  match closeAllConnsM w with
  | (some e, w') => (some e, w')
  | (none, w') => (none, clearAllAndFilesM w')

/-- Invariant of the connection pool maintained by sequential GetConn
acquisitions from a fresh writer: the two maps hold the same keys in the
same order, keys are distinct, and the pool is within capacity. -/
def poolInv (w : WriterM) : Prop :=
  keysA w.pool = keysA w.lastUsed ∧ (keysA w.pool).Nodup ∧ w.pool.length ≤ w.maxConns

-- Concrete handles, oracles and writers used by witnesses and
-- counterexamples.

/-- A live handle on file "a" whose OS operations all succeed. -/
def exFileA : FileH := { name := "a", statOk := true, closeRes := .ok }

/-- A live handle on file "b" whose OS operations all succeed. -/
def exFileB : FileH := { name := "b", statOk := true, closeRes := .ok }

/-- A live handle on file "x" whose Close() reports a genuine failure. -/
def exBadClose : FileH := { name := "x", statOk := true, closeRes := .genuineErr }

/-- An OS in which every open, write and flush succeeds. -/
def osAllOK : OSOracle :=
  { openFile := fun n _ => some { name := n, statOk := true, closeRes := .ok },
    writeRes := fun _ _ => none,
    flushRes := fun _ _ => none }

/-- A configured writer over two live targets and one nil entry. -/
def exWriter : WriterM :=
  { files := some [some exFileA, some exFileB, none],
    mode := some { mode := some "a" }, message := some "hello",
    maxConns := 4, retries := 2, backoff := 100, ctxCancelled := false,
    pool := [], lastUsed := [], clock := 0 }

/-- A writer holding one pooled handle whose close genuinely fails. -/
def exResetWriter : WriterM :=
  { files := some [some exFileA],
    mode := some { mode := some "a" }, message := some "hello",
    maxConns := 4, retries := 0, backoff := 0, ctxCancelled := false,
    pool := [("x", exBadClose)], lastUsed := [("x", 0)], clock := 1 }

/-- A writer at capacity 1 whose pool holds one live handle on "a". -/
def exPoolWriter : WriterM :=
  { files := some [], mode := some { mode := some "a" }, message := some "",
    maxConns := 1, retries := 0, backoff := 0, ctxCancelled := false,
    pool := [("a", exFileA)], lastUsed := [("a", 0)], clock := 1 }

/-- Like `exResetWriter`, but closing the pooled handle reports
"file already closed" instead of a genuine failure. -/
def exResetOkWriter : WriterM :=
  { files := some [some exFileA],
    mode := some { mode := some "a" }, message := some "hello",
    maxConns := 4, retries := 0, backoff := 0, ctxCancelled := false,
    pool := [("x", { name := "x", statOk := true, closeRes := .alreadyClosed })],
    lastUsed := [("x", 0)], clock := 1 }

/-- An operation that fails on every attempt. -/
def opFail : Nat → Unit → Option String × Unit :=
  fun _ _ => (some "write failed", ())

/-- An operation that fails on attempts 0 and 1 and succeeds from attempt 2. -/
def opThirdTime : Nat → Unit → Option String × Unit :=
  fun k _ => (if k < 2 then some "transient" else none, ())

/-- A complete, correctly typed configuration map. -/
def exGoodConfig : List (String × ConfigVal) :=
  [("files", .files (some [some exFileA])),
   ("mode", .mode (some { mode := some "a" })),
   ("message", .message (some "hello")),
   ("retries", .u64 3),
   ("backoff", .u64 100),
   ("maxPool", .u64 10)]

/-- The writer `NewWriterFromMap` builds from `exGoodConfig`. -/
def exWriterFromMap : WriterM :=
  { files := some [some exFileA], mode := some { mode := some "a" },
    message := some "hello", maxConns := 10, retries := 3, backoff := 100,
    ctxCancelled := false, pool := [], lastUsed := [], clock := 0 }

/-! ### Association-list lemmas -/

theorem keysA_nil {α : Type} : keysA ([] : List (String × α)) = [] := rfl

theorem keysA_cons {α : Type} (p : String × α) (rest : List (String × α)) :
    keysA (p :: rest) = p.1 :: keysA rest := rfl

theorem keysA_append {α : Type} (l1 l2 : List (String × α)) :
    keysA (l1 ++ l2) = keysA l1 ++ keysA l2 :=
  List.map_append _ _ _

theorem lookupA_eq_none {α : Type} (l : List (String × α)) (k : String) :
    lookupA l k = none ↔ k ∉ keysA l := by
  induction l with
  | nil => simp [lookupA, keysA_nil]
  | cons p rest ih =>
    rw [keysA_cons]
    by_cases hp : p.1 = k
    · subst hp
      simp [lookupA]
    · rw [List.mem_cons]
      simp only [lookupA, hp, if_false, ih]
      constructor
      · intro h hor
        rcases hor with he | hm
        · exact hp he.symm
        · exact h hm
      · intro h hm
        exact h (Or.inr hm)

theorem lookupA_isSome {α : Type} (l : List (String × α)) (k : String) :
    (lookupA l k).isSome ↔ k ∈ keysA l := by
  rw [← Decidable.not_iff_not, Bool.not_eq_true, Option.not_isSome,
    Option.isNone_iff_eq_none, lookupA_eq_none]

theorem lookupA_mem {α : Type} (l : List (String × α)) (k : String) (v : α)
    (h : lookupA l k = some v) : (k, v) ∈ l := by
  induction l with
  | nil => exact absurd h (by simp [lookupA])
  | cons p rest ih =>
    by_cases hp : p.1 = k
    · subst hp
      simp only [lookupA, if_pos rfl] at h
      cases h
      exact List.mem_cons_self _ _
    · simp only [lookupA, hp, if_false] at h
      exact List.mem_cons_of_mem _ (ih h)

theorem mem_keysA_of_mem {α : Type} {l : List (String × α)} {p : String × α}
    (hm : p ∈ l) : p.1 ∈ keysA l :=
  List.mem_map_of_mem Prod.fst hm

theorem lookupA_of_mem_nodup {α : Type} (l : List (String × α)) (k : String) (v : α)
    (hnd : (keysA l).Nodup) (hm : (k, v) ∈ l) : lookupA l k = some v := by
  induction l with
  | nil => exact absurd hm (List.not_mem_nil _)
  | cons p rest ih =>
    rw [keysA_cons] at hnd
    rcases List.mem_cons.mp hm with h | h
    · cases h
      simp [lookupA]
    · have hk : k ∈ keysA rest := mem_keysA_of_mem (p := (k, v)) h
      have hp : p.1 ≠ k := fun he => (List.nodup_cons.mp hnd).1 (he ▸ hk)
      simp only [lookupA, hp, if_false]
      exact ih (List.nodup_cons.mp hnd).2 h

theorem mem_keysA_eraseA {α : Type} (l : List (String × α)) (k : String) :
    ∀ x, x ∈ keysA (eraseA l k) → x ∈ keysA l ∧ x ≠ k := by
  induction l with
  | nil => intro x hx; exact absurd hx (by simp [eraseA, keysA_nil])
  | cons p rest ih =>
    intro x hx
    rw [keysA_cons]
    by_cases hp : p.1 = k
    · simp only [eraseA, hp, if_pos] at hx
      have := ih x hx
      exact ⟨List.mem_cons_of_mem _ this.1, this.2⟩
    · simp only [eraseA, hp, if_false] at hx
      rw [keysA_cons, List.mem_cons] at hx
      rcases hx with h | h
      · exact ⟨List.mem_cons.mpr (Or.inl h), h ▸ hp⟩
      · have := ih x h
        exact ⟨List.mem_cons_of_mem _ this.1, this.2⟩

theorem eraseA_of_not_mem {α : Type} (l : List (String × α)) (k : String)
    (h : k ∉ keysA l) : eraseA l k = l := by
  induction l with
  | nil => rfl
  | cons p rest ih =>
    rw [keysA_cons, List.mem_cons] at h
    push_neg at h
    have hp : p.1 ≠ k := fun he => h.1 he.symm
    simp only [eraseA, hp, if_false]
    rw [ih h.2]

theorem keysA_eraseA_nodup {α : Type} (l : List (String × α)) (k : String)
    (h : (keysA l).Nodup) : (keysA (eraseA l k)).Nodup := by
  induction l with
  | nil => simpa [eraseA] using h
  | cons p rest ih =>
    rw [keysA_cons, List.nodup_cons] at h
    by_cases hp : p.1 = k
    · simp only [eraseA, hp, if_pos]
      exact ih h.2
    · simp only [eraseA, hp, if_false]
      rw [keysA_cons, List.nodup_cons]
      refine ⟨fun hm => ?_, ih h.2⟩
      exact h.1 (mem_keysA_eraseA rest k p.1 hm).1

theorem length_eraseA_add_one {α : Type} (l : List (String × α)) (k : String)
    (hnd : (keysA l).Nodup) (hm : k ∈ keysA l) :
    (eraseA l k).length + 1 = l.length := by
  induction l with
  | nil => exact absurd hm (by simp [keysA_nil])
  | cons p rest ih =>
    rw [keysA_cons, List.nodup_cons] at hnd
    by_cases hp : p.1 = k
    · simp only [eraseA, hp, if_pos]
      rw [eraseA_of_not_mem rest k (hp ▸ hnd.1)]
      simp
    · rw [keysA_cons, List.mem_cons] at hm
      rcases hm with he | hm
      · exact absurd he.symm hp
      · simp only [eraseA, hp, if_false, List.length_cons]
        rw [← ih hnd.2 hm]

theorem length_eraseA_le {α : Type} (l : List (String × α)) (k : String) :
    (eraseA l k).length ≤ l.length := by
  induction l with
  | nil => simp [eraseA]
  | cons p rest ih =>
    by_cases hp : p.1 = k
    · simp only [eraseA, hp, if_pos]
      exact Nat.le_succ_of_le ih
    · simp only [eraseA, hp, if_false, List.length_cons]
      exact Nat.succ_le_succ ih

theorem lookupA_eraseA_self {α : Type} (l : List (String × α)) (k : String) :
    lookupA (eraseA l k) k = none := by
  rw [lookupA_eq_none]
  intro hm
  exact (mem_keysA_eraseA l k k hm).2 rfl

theorem lookupA_append_of_none {α : Type} (l1 l2 : List (String × α)) (k : String)
    (h : lookupA l1 k = none) : lookupA (l1 ++ l2) k = lookupA l2 k := by
  induction l1 with
  | nil => rfl
  | cons p rest ih =>
    by_cases hp : p.1 = k
    · simp [lookupA, hp] at h
    · simp only [lookupA, hp, if_false] at h ⊢
      exact ih h

theorem storeA_of_not_mem {α : Type} (l : List (String × α)) (k : String) (v : α)
    (h : k ∉ keysA l) : storeA l k v = l ++ [(k, v)] := by
  have : lookupA l k = none := (lookupA_eq_none l k).mpr h
  simp [storeA, this]

theorem keysA_map_update {α : Type} (l : List (String × α)) (k : String) (v : α) :
    keysA (l.map (fun p => if p.1 = k then (k, v) else p)) = keysA l := by
  induction l with
  | nil => rfl
  | cons p rest ih =>
    by_cases hp : p.1 = k
    · simp only [List.map_cons, hp, if_pos, keysA_cons, ih]
    · simp only [List.map_cons, hp, if_false, keysA_cons, ih]

theorem keysA_storeA_of_isSome {α : Type} (l : List (String × α)) (k : String) (v : α)
    (h : (lookupA l k).isSome) : keysA (storeA l k v) = keysA l := by
  simp only [storeA, h, if_pos]
  exact keysA_map_update l k v

theorem length_storeA_of_isSome {α : Type} (l : List (String × α)) (k : String) (v : α)
    (h : (lookupA l k).isSome) : (storeA l k v).length = l.length := by
  simp [storeA, h]

/-! ### Least-recently-used scan -/

theorem foldMin_go {l : List (String × Nat)} (q : String × Nat) :
    ∃ q', l.foldl (fun acc p =>
        match acc with
        | none => some p
        | some q => if p.2 < q.2 then some p else some q) (some q) = some q' ∧
      (q' = q ∨ q' ∈ l) ∧ q'.2 ≤ q.2 ∧ ∀ p ∈ l, q'.2 ≤ p.2 := by
  induction l generalizing q with
  | nil => exact ⟨q, rfl, Or.inl rfl, le_refl _, by simp⟩
  | cons p rest ih =>
    by_cases hlt : p.2 < q.2
    · obtain ⟨q', hq', hmem, hle, hall⟩ := ih p
      refine ⟨q', by simpa [hlt] using hq', ?_, ?_, ?_⟩
      · rcases hmem with h | h
        · exact Or.inr (List.mem_cons.mpr (Or.inl h))
        · exact Or.inr (List.mem_cons_of_mem _ h)
      · exact le_trans hle (le_of_lt hlt)
      · intro r hr
        rcases List.mem_cons.mp hr with h | h
        · exact h ▸ hle
        · exact hall r h
    · obtain ⟨q', hq', hmem, hle, hall⟩ := ih q
      refine ⟨q', by simpa [hlt] using hq', ?_, hle, ?_⟩
      · rcases hmem with h | h
        · exact Or.inl h
        · exact Or.inr (List.mem_cons_of_mem _ h)
      · intro r hr
        rcases List.mem_cons.mp hr with h | h
        · exact h ▸ le_trans hle (not_lt.mp hlt)
        · exact hall r h

theorem foldMin_spec (l : List (String × Nat)) (hne : l ≠ []) :
    ∃ q, foldMin l = some q ∧ q ∈ l ∧ ∀ p ∈ l, q.2 ≤ p.2 := by
  match l, hne with
  | p :: rest, _ =>
    obtain ⟨q', hq', hmem, hle, hall⟩ := foldMin_go (l := rest) p
    refine ⟨q', hq', ?_, ?_⟩
    · rcases hmem with h | h
      · exact List.mem_cons.mpr (Or.inl h)
      · exact List.mem_cons_of_mem _ h
    · intro r hr
      rcases List.mem_cons.mp hr with h | h
      · exact h ▸ hle
      · exact hall r h

theorem oldestEntry_spec (l : List (String × Nat)) (hne : l ≠ []) :
    ∃ o t, oldestEntry l = some o ∧ (o, t) ∈ l ∧ ∀ p ∈ l, t ≤ p.2 := by
  obtain ⟨q, hq, hmem, hall⟩ := foldMin_spec l hne
  exact ⟨q.1, q.2, by simp [oldestEntry, hq], hmem, hall⟩

theorem keysA_eraseA_eq {α : Type} (l : List (String × α)) (k : String) :
    keysA (eraseA l k) = (keysA l).filter (fun x => x ≠ k) := by
  induction l with
  | nil => rfl
  | cons p rest ih =>
    by_cases hp : p.1 = k
    · simp only [eraseA, hp, if_pos, keysA_cons, List.filter_cons]
      simp [hp, ih]
    · simp only [eraseA, hp, if_false, keysA_cons, List.filter_cons]
      simp [hp, ih]

/-! ### Pool invariant through GetConn -/

theorem getConnAdmit_config (w : WriterM) (f : FileH) :
    (getConnAdmit w f).2.maxConns = w.maxConns ∧
    (getConnAdmit w f).2.mode = w.mode ∧
    (getConnAdmit w f).2.files = w.files ∧
    (getConnAdmit w f).2.message = w.message ∧
    (getConnAdmit w f).2.retries = w.retries ∧
    (getConnAdmit w f).2.backoff = w.backoff ∧
    (getConnAdmit w f).2.ctxCancelled = w.ctxCancelled := by
  simp only [getConnAdmit]
  split
  · split
    · split <;> simp
    · simp
  · simp

theorem getConnAdmit_fst (w : WriterM) (f : FileH) : (getConnAdmit w f).1 = f := by
  simp only [getConnAdmit]

theorem getConn_config (w : WriterM) (file : Option FileH) (g : FileH) (w' : WriterM)
    (h : getConn w file = .ok (g, w')) :
    w'.maxConns = w.maxConns ∧ w'.mode = w.mode ∧ w'.files = w.files ∧
    w'.message = w.message ∧ w'.retries = w.retries ∧ w'.backoff = w.backoff ∧
    w'.ctxCancelled = w.ctxCancelled := by
  cases file with
  | none => exact absurd h (by simp [getConn])
  | some f =>
    simp only [getConn] at h
    cases hl : lookupA w.pool f.name with
    | none =>
      rw [hl] at h
      simp only at h
      injection h with h2
      have hw : w' = (getConnAdmit w f).2 := (congrArg Prod.snd h2).symm
      subst hw
      exact getConnAdmit_config w f
    | some g0 =>
      rw [hl] at h
      simp only at h
      by_cases hst : g0.statOk
      · rw [if_pos hst] at h
        injection h with h2
        injection h2 with hg hw
        rw [← hw]
        exact ⟨rfl, rfl, rfl, rfl, rfl, rfl, rfl⟩
      · rw [if_neg hst] at h
        injection h with h2
        have hw : (getConnAdmit
            { w with pool := eraseA w.pool f.name,
                     lastUsed := eraseA w.lastUsed f.name } f).2 = w' :=
          congrArg Prod.snd h2
        rw [← hw]
        exact getConnAdmit_config _ f

theorem getConnAdmit_inv (w : WriterM) (f : FileH) (h1 : 1 ≤ w.maxConns)
    (hinv : poolInv w) (hnm : f.name ∉ keysA w.pool) :
    poolInv (getConnAdmit w f).2 := by
  obtain ⟨hkeys, hnd, hlen⟩ := hinv
  by_cases hcap : w.maxConns ≤ w.pool.length
  · -- pool at capacity: the LRU entry is evicted, then the new handle stored
    have hpne : w.pool ≠ [] := by
      intro he
      rw [he] at hcap
      simp at hcap
      omega
    have hlune : w.lastUsed ≠ [] := by
      intro he
      apply hpne
      rw [he] at hkeys
      simpa [keysA_nil, keysA, List.map_eq_nil_iff] using hkeys
    obtain ⟨o, t, ho, homem, _⟩ := oldestEntry_spec w.lastUsed hlune
    have homemk : o ∈ keysA w.pool := by
      rw [hkeys]
      exact mem_keysA_of_mem (p := (o, t)) homem
    have hos : (lookupA w.pool o).isSome := (lookupA_isSome _ _).mpr homemk
    have hb : f.name ∉ keysA (eraseA w.pool o) := by
      intro hm
      exact hnm (mem_keysA_eraseA w.pool o f.name hm).1
    have hbl : f.name ∉ keysA (eraseA w.lastUsed o) := by
      intro hm
      apply hb
      rw [keysA_eraseA_eq] at hm ⊢
      rw [hkeys]
      exact hm
    simp only [getConnAdmit, hcap, if_pos, ho]
    rw [if_pos hos]
    simp only
    rw [storeA_of_not_mem _ _ _ hb, storeA_of_not_mem _ _ _ hbl]
    refine ⟨?_, ?_, ?_⟩
    · rw [keysA_append, keysA_append, keysA_eraseA_eq, keysA_eraseA_eq, hkeys]
      rfl
    · rw [keysA_append]
      rw [List.nodup_append]
      refine ⟨keysA_eraseA_nodup _ _ hnd, List.nodup_singleton _, ?_⟩
      simp only [keysA_cons, keysA_nil, List.disjoint_singleton]
      exact hb
    · simp only [List.length_append, List.length_singleton]
      rw [length_eraseA_add_one w.pool o hnd homemk]
      exact hlen
  · -- pool below capacity: the new handle is simply appended
    have hblu : f.name ∉ keysA w.lastUsed := hkeys ▸ hnm
    simp only [getConnAdmit, hcap, if_false]
    rw [storeA_of_not_mem _ _ _ hnm, storeA_of_not_mem _ _ _ hblu]
    refine ⟨?_, ?_, ?_⟩
    · rw [keysA_append, keysA_append, hkeys]
      rfl
    · rw [keysA_append, List.nodup_append]
      refine ⟨hnd, List.nodup_singleton _, ?_⟩
      simp only [keysA_cons, keysA_nil, List.disjoint_singleton]
      exact hnm
    · simp only [List.length_append, List.length_singleton]
      omega

theorem getConn_inv (w : WriterM) (file : Option FileH) (h1 : 1 ≤ w.maxConns)
    (hinv : poolInv w) :
    ∀ g w', getConn w file = .ok (g, w') → poolInv w' := by
  intro g w' h
  cases file with
  | none => exact absurd h (by simp [getConn])
  | some f =>
    simp only [getConn] at h
    cases hl : lookupA w.pool f.name with
    | none =>
      rw [hl] at h
      simp only at h
      injection h with h2
      have hw : (getConnAdmit w f).2 = w' := congrArg Prod.snd h2
      rw [← hw]
      exact getConnAdmit_inv w f h1 hinv ((lookupA_eq_none _ _).mp hl)
    | some g0 =>
      rw [hl] at h
      simp only at h
      by_cases hst : g0.statOk
      · rw [if_pos hst] at h
        injection h with h2
        injection h2 with hg hw
        rw [← hw]
        obtain ⟨hkeys, hnd, hlen⟩ := hinv
        have hmem : f.name ∈ keysA w.lastUsed := by
          rw [← hkeys]
          exact (lookupA_isSome _ _).mp (by rw [hl]; rfl)
        refine ⟨?_, hnd, hlen⟩
        simp only
        rw [keysA_storeA_of_isSome _ _ _ ((lookupA_isSome _ _).mpr hmem)]
        exact hkeys
      · rw [if_neg hst] at h
        injection h with h2
        have hw : (getConnAdmit
            { w with pool := eraseA w.pool f.name,
                     lastUsed := eraseA w.lastUsed f.name } f).2 = w' :=
          congrArg Prod.snd h2
        rw [← hw]
        obtain ⟨hkeys, hnd, hlen⟩ := hinv
        refine getConnAdmit_inv _ f h1 ⟨?_, ?_, ?_⟩ ?_
        · simp only
          rw [keysA_eraseA_eq, keysA_eraseA_eq, hkeys]
        · exact keysA_eraseA_nodup _ _ hnd
        · simp only
          exact le_trans (length_eraseA_le _ _) hlen
        · simp only
          exact fun hm => (mem_keysA_eraseA _ _ _ hm).2 rfl

theorem runGetConns_inv (inputs : List (Option FileH)) (w : WriterM)
    (h1 : 1 ≤ w.maxConns) (hinv : poolInv w) :
    poolInv (runGetConns w inputs) ∧ (runGetConns w inputs).maxConns = w.maxConns := by
  induction inputs generalizing w with
  | nil => exact ⟨hinv, rfl⟩
  | cons file rest ih =>
    have hrec : runGetConns w (file :: rest)
        = runGetConns (match getConn w file with
            | .error _ => w
            | .ok (_, w') => w') rest := rfl
    rcases hstep : getConn w file with e | pr
    · have hm : (match getConn w file with
        | .error _ => w
        | .ok (_, w') => w') = w := by rw [hstep]
      rw [hrec, hm]
      exact ih w h1 hinv
    · obtain ⟨g, w'⟩ := pr
      have hm : (match getConn w file with
        | .error _ => w
        | .ok (_, w') => w') = w' := by rw [hstep]
      rw [hrec, hm]
      have hcfg := getConn_config w file g w' hstep
      have h1' : 1 ≤ w'.maxConns := hcfg.1 ▸ h1
      have hinv' : poolInv w' := getConn_inv w file h1 hinv g w' hstep
      have hih := ih w' h1' hinv'
      exact ⟨hih.1, by rw [hih.2, hcfg.1]⟩

/-! ### Retry wrapper -/

theorem outcome_bind_ok {α β : Type} (a : α) (f : α → Outcome β) :
    (Outcome.ok a >>= f) = f a := rfl

theorem outcome_pure {α : Type} (a : α) : (pure a : Outcome α) = .ok a := rfl

theorem pureOp_apply {σ : Type} (g : Nat → σ → Option String × σ) (k : Nat) (s : σ) :
    pureOp g k s = .ok (g k s) := rfl

theorem retryLoop_succ {σ : Type} (f : Nat → σ → Outcome (Option String × σ))
    (k b i : Nat) (s : σ) :
    retryLoop f k b (i + 1) s = (do
      let (err?, s') ← f k s
      match err? with
      | none => pure { err := none, state := s', delays := [], calls := 1 }
      | some e =>
        if i = 0 then
          pure { err := some ("exhausted retries: last error: " ++ e),
                 state := s', delays := [], calls := 1 }
        else do
          let r ← retryLoop f (k + 1) (backoffStep b) i s'
          pure { err := r.err, state := r.state,
                 delays := b :: r.delays, calls := r.calls + 1 }) := rfl

theorem retryLoop_allFail {σ : Type} (g : Nat → σ → Option String × σ)
    (hf : ∀ k s, ((g k s).1).isSome) :
    ∀ i k b s, 1 ≤ i → ∃ e tr, retryLoop (pureOp g) k b i s = .ok tr ∧
      tr.calls = i ∧ tr.err = some ("exhausted retries: last error: " ++ e) ∧
      tr.delays = (List.range (i - 1)).map (fun j => backoffStep^[j] b) := by
  intro i
  induction i with
  | zero => intro k b s h; omega
  | succ i ih =>
    intro k b s _
    rcases hgp : g k s with ⟨e?, s2⟩
    have hsome := hf k s
    rw [hgp] at hsome
    obtain ⟨e, rfl⟩ := Option.isSome_iff_exists.mp hsome
    cases i with
    | zero =>
      refine ⟨e, { err := some ("exhausted retries: last error: " ++ e),
                   state := s2, delays := [], calls := 1 }, ?_, rfl, rfl, by simp⟩
      rw [retryLoop_succ]
      simp only [pureOp_apply, hgp, outcome_bind_ok]
      rfl
    | succ i' =>
      obtain ⟨e', tr, htr, hc, herr, hd⟩ := ih (k + 1) (backoffStep b) s2 (by omega)
      refine ⟨e', { err := tr.err, state := tr.state,
                    delays := b :: tr.delays, calls := tr.calls + 1 }, ?_,
        by simp [hc], by simp [herr], ?_⟩
      · rw [retryLoop_succ]
        simp only [pureOp_apply, hgp, outcome_bind_ok]
        rw [if_neg (by omega : ¬(i' + 1 = 0)), htr]
        rfl
      · simp only [hd, Nat.succ_sub_one]
        rw [List.range_succ_eq_map, List.map_cons, List.map_map]
        congr 1

theorem retryLoop_firstSuccess {σ : Type} (g : Nat → σ → Option String × σ) :
    ∀ (j : Nat), ∀ i k b s, (∀ a t, a < j → ((g (k + a) t).1).isSome) →
      (∀ t, (g (k + j) t).1 = none) → j < i →
      ∃ tr, retryLoop (pureOp g) k b i s = .ok tr ∧ tr.calls = j + 1 ∧ tr.err = none := by
  intro j
  induction j with
  | zero =>
    intro i k b s _ hsucc hj
    cases i with
    | zero => omega
    | succ i' =>
      rcases hgp : g k s with ⟨e?, s2⟩
      have hmm := hsucc s
      rw [Nat.add_zero, hgp] at hmm
      simp only at hmm
      subst hmm
      refine ⟨{ err := none, state := s2, delays := [], calls := 1 }, ?_, rfl, rfl⟩
      rw [retryLoop_succ]
      simp only [pureOp_apply, hgp, outcome_bind_ok]
      rfl
  | succ j' ih =>
    intro i k b s hfail hsucc hj
    cases i with
    | zero => omega
    | succ i' =>
      rcases hgp : g k s with ⟨e?, s2⟩
      have hsome := hfail 0 s (by omega)
      rw [Nat.add_zero, hgp] at hsome
      obtain ⟨e, rfl⟩ := Option.isSome_iff_exists.mp hsome
      have hfail' : ∀ a t, a < j' → ((g (k + 1 + a) t).1).isSome := by
        intro a t ha
        have h := hfail (a + 1) t (by omega)
        rwa [show k + (a + 1) = k + 1 + a by omega] at h
      have hsucc' : ∀ t, (g (k + 1 + j') t).1 = none := by
        intro t
        have h := hsucc t
        rwa [show k + (j' + 1) = k + 1 + j' by omega] at h
      obtain ⟨tr, htr, hc, herr⟩ := ih i' (k + 1) (backoffStep b) s2 hfail' hsucc' (by omega)
      refine ⟨{ err := tr.err, state := tr.state,
                delays := b :: tr.delays, calls := tr.calls + 1 }, ?_,
        by simp [hc], by simp [herr]⟩
      rw [retryLoop_succ]
      simp only [pureOp_apply, hgp, outcome_bind_ok]
      rw [if_neg (by omega : ¬(i' = 0)), htr]
      rfl

theorem retryLoop_pureOp_ok {σ : Type} (g : Nat → σ → Option String × σ) :
    ∀ i k b s, ∃ tr, retryLoop (pureOp g) k b i s = .ok tr := by
  intro i
  induction i with
  | zero => exact fun k b s => ⟨_, rfl⟩
  | succ i ih =>
    intro k b s
    rcases hgp : g k s with ⟨e?, s2⟩
    cases e? with
    | none =>
      rw [retryLoop_succ]
      simp only [pureOp_apply, hgp, outcome_bind_ok]
      exact ⟨_, rfl⟩
    | some e =>
      by_cases hi : i = 0
      · subst hi
        rw [retryLoop_succ]
        simp only [pureOp_apply, hgp, outcome_bind_ok]
        exact ⟨_, rfl⟩
      · obtain ⟨tr, htr⟩ := ih (k + 1) (backoffStep b) s2
        rw [retryLoop_succ]
        simp only [pureOp_apply, hgp, outcome_bind_ok]
        rw [if_neg hi, htr]
        exact ⟨_, rfl⟩

theorem retryGo_pureOp {σ : Type} (R b : Nat) (g : Nat → σ → Option String × σ) (s : σ) :
    retryGo R b (pureOp g) s = .ok (runRetry R b g s) := by
  by_cases hR : R = 0
  · subst hR
    rfl
  · rw [runRetry]
    have hgo : retryGo R b (pureOp g) s = retryLoop (pureOp g) 0 b R s := by
      simp [retryGo, hR]
    rw [hgo]
    obtain ⟨tr, htr⟩ := retryLoop_pureOp_ok g R 0 b s
    rw [htr]

theorem runRetry_zero {σ : Type} (b : Nat) (g : Nat → σ → Option String × σ) (s : σ) :
    runRetry 0 b g s = { err := (g 0 s).1, state := (g 0 s).2, delays := [], calls := 1 } := rfl

theorem runRetry_allFail {σ : Type} (g : Nat → σ → Option String × σ) (s : σ)
    (R b : Nat) (hf : ∀ k t, ((g k t).1).isSome) (hR : 1 ≤ R) :
    (runRetry R b g s).calls = R ∧
    (∃ e, (runRetry R b g s).err = some ("exhausted retries: last error: " ++ e)) ∧
    (runRetry R b g s).delays = (List.range (R - 1)).map (fun j => backoffStep^[j] b) := by
  obtain ⟨e, tr, htr, hc, herr, hd⟩ := retryLoop_allFail g hf R 0 b s hR
  have hgo : retryGo R b (pureOp g) s = .ok tr := by
    rw [retryGo, if_neg (by omega : ¬(R = 0))]
    exact htr
  have heq := (retryGo_pureOp R b g s).symm.trans hgo
  injection heq with heq
  rw [heq]
  exact ⟨hc, ⟨e, herr⟩, hd⟩

theorem runRetry_firstSuccess {σ : Type} (g : Nat → σ → Option String × σ) (s : σ)
    (R b j : Nat) (hfail : ∀ a t, a < j → ((g a t).1).isSome)
    (hsucc : ∀ t, (g j t).1 = none) (hj : j < R) :
    (runRetry R b g s).calls = j + 1 ∧ (runRetry R b g s).err = none := by
  have hfail0 : ∀ a t, a < j → ((g (0 + a) t).1).isSome := by
    intro a t ha
    rw [Nat.zero_add]
    exact hfail a t ha
  have hsucc0 : ∀ t, (g (0 + j) t).1 = none := by
    intro t
    rw [Nat.zero_add]
    exact hsucc t
  obtain ⟨tr, htr, hc, herr⟩ := retryLoop_firstSuccess g j R 0 b s hfail0 hsucc0 hj
  have hgo : retryGo R b (pureOp g) s = .ok tr := by
    rw [retryGo, if_neg (by omega : ¬(R = 0))]
    exact htr
  have heq := (retryGo_pureOp R b g s).symm.trans hgo
  injection heq with heq
  rw [heq]
  exact ⟨hc, herr⟩

theorem backoffStep_iterate_le (base : Nat) : ∀ j, backoffStep^[j] base ≤ max base 1998 := by
  intro j
  induction j with
  | zero => simp
  | succ j ih =>
    rw [Function.iterate_succ_apply']
    rw [backoffStep]
    split
    · rename_i hlt
      rcases le_or_lt (backoffStep^[j] base) 999 with h9 | h9
      · omega
      · omega
    · exact ih

/-! ### Batcher -/

theorem numBatches_succ (bs : Nat) (h1 : 1 ≤ bs) (n : Nat) (hn : 1 ≤ n) :
    (n + bs - 1) / bs = ((n - bs) + bs - 1) / bs + 1 := by
  rcases le_or_lt n bs with hle | hlt
  · have h0 : n - bs = 0 := by omega
    rw [h0]
    have e1 : n + bs - 1 = (n - 1) + bs := by omega
    rw [e1, Nat.add_div_right _ (by omega : 0 < bs)]
    rw [Nat.div_eq_of_lt (by omega : n - 1 < bs)]
    rw [Nat.div_eq_of_lt (by omega : 0 + bs - 1 < bs)]
  · have e1 : n + bs - 1 = ((n - bs) + bs - 1) + bs := by omega
    rw [e1, Nat.add_div_right _ (by omega : 0 < bs)]

theorem chunks_flatten {α : Type} (bs : Nat) (h1 : 1 ≤ bs) :
    ∀ (n : Nat) (l : List α), l.length ≤ n →
      ((List.range ((l.length + bs - 1) / bs)).map
        (fun i => (l.drop (i * bs)).take bs)).flatten = l := by
  intro n
  induction n with
  | zero =>
    intro l hl
    have hnil : l = [] := List.eq_nil_of_length_eq_zero (by omega)
    subst hnil
    simp [Nat.div_eq_of_lt (by omega : 0 + bs - 1 < bs)]
  | succ n ih =>
    intro l hl
    rcases eq_or_ne l [] with rfl | hne
    · simp [Nat.div_eq_of_lt (by omega : 0 + bs - 1 < bs)]
    · have hlen : 1 ≤ l.length := List.length_pos.mpr hne
      rw [numBatches_succ bs h1 l.length hlen]
      rw [List.range_succ_eq_map, List.map_cons, List.map_map, List.flatten_cons]
      have hcomp : ((fun i => (l.drop (i * bs)).take bs) ∘ Nat.succ)
          = (fun i => (((l.drop bs).drop (i * bs)).take bs)) := by
        funext i
        simp only [Function.comp_apply, List.drop_drop]
        congr 2
        rw [Nat.succ_mul]
        omega
      rw [hcomp]
      have hrec : l.length - bs = (l.drop bs).length := (List.length_drop bs l).symm
      rw [hrec]
      rw [ih (l.drop bs) (by rw [List.length_drop]; omega)]
      simp [List.take_append_drop]

theorem chunks_batch_len {α : Type} (bs : Nat) (l : List α) (i : Nat)
    (hbs : 1 ≤ bs) (hi : i + 1 < (l.length + bs - 1) / bs) :
    ((l.drop (i * bs)).take bs).length = bs := by
  rw [List.length_take, List.length_drop]
  have h2 : (i + 2) * bs ≤ l.length + bs - 1 :=
    (Nat.le_div_iff_mul_le (by omega : 0 < bs)).mp (by omega)
  have h3 : (i + 2) * bs = i * bs + bs + bs := by ring
  rw [h3] at h2
  have hx : 1 ≤ l.length := by
    rcases Nat.eq_zero_or_pos l.length with h0 | h0
    · rw [h0] at hi
      rw [Nat.div_eq_of_lt (by omega : 0 + bs - 1 < bs)] at hi
      omega
    · exact h0
  generalize i * bs = m at h2 ⊢
  omega

theorem map_range_getD {α : Type} (n i : Nat) (f : Nat → α) (d : α) (h : i < n) :
    ((List.range n).map f).getD i d = f i := by
  rw [List.getD_eq_getElem?_getD]
  rw [List.getElem?_map]
  rw [List.getElem?_range h]
  rfl

/-! ### One write attempt and the worker body -/

theorem closeInPool_fields (w : WriterM) (n : String) :
    (closeInPool w n).mode = w.mode ∧ (closeInPool w n).retries = w.retries ∧
    (closeInPool w n).backoff = w.backoff ∧
    (closeInPool w n).ctxCancelled = w.ctxCancelled ∧
    (closeInPool w n).files = w.files ∧ (closeInPool w n).message = w.message := by
  rw [closeInPool]
  split
  · exact ⟨rfl, rfl, rfl, rfl, rfl, rfl⟩
  · exact ⟨rfl, rfl, rfl, rfl, rfl, rfl⟩

theorem retryLoop_invariant {σ : Type} (P : σ → Prop)
    (f : Nat → σ → Outcome (Option String × σ))
    (hf : ∀ k s, P s → ∃ e s', f k s = .ok (e, s') ∧ P s') :
    ∀ i k b s, P s → ∃ tr, retryLoop f k b i s = .ok tr ∧ P tr.state := by
  intro i
  induction i with
  | zero => exact fun k b s hP => ⟨_, rfl, hP⟩
  | succ i ih =>
    intro k b s hP
    obtain ⟨e?, s', hfk, hP'⟩ := hf k s hP
    cases e? with
    | none =>
      rw [retryLoop_succ]
      simp only [hfk, outcome_bind_ok]
      exact ⟨_, rfl, hP'⟩
    | some e =>
      by_cases hi : i = 0
      · subst hi
        rw [retryLoop_succ]
        simp only [hfk, outcome_bind_ok]
        exact ⟨_, rfl, hP'⟩
      · obtain ⟨tr, htr, hPtr⟩ := ih (k + 1) (backoffStep b) s' hP'
        rw [retryLoop_succ]
        simp only [hfk, outcome_bind_ok]
        rw [if_neg hi, htr]
        exact ⟨_, rfl, hPtr⟩

theorem retryGo_invariant {σ : Type} (P : σ → Prop)
    (f : Nat → σ → Outcome (Option String × σ))
    (hf : ∀ k s, P s → ∃ e s', f k s = .ok (e, s') ∧ P s')
    (R b : Nat) (s : σ) (hP : P s) :
    ∃ tr, retryGo R b f s = .ok tr ∧ P tr.state := by
  by_cases hR : R = 0
  · subst hR
    obtain ⟨e?, s', hfk, hP'⟩ := hf 0 s hP
    rw [retryGo, if_pos rfl]
    simp only [hfk, outcome_bind_ok]
    exact ⟨_, rfl, hP'⟩
  · rw [retryGo, if_neg hR]
    exact retryLoop_invariant P f hf R 0 b s hP

theorem writeToFileM_props (os : OSOracle) (f : FileH) (k : Nat) (w : WriterM)
    (res : ResultsM) (ms : String) (hm : w.mode = some { mode := some ms }) :
    ∃ e w' res', writeToFileM os (some f) k (w, res) = .ok (e, (w', res')) ∧
      w'.mode = w.mode ∧ w'.retries = w.retries ∧ w'.backoff = w.backoff ∧
      w'.ctxCancelled = w.ctxCancelled ∧ w'.files = w.files ∧ w'.message = w.message ∧
      res'.success = res.success ∧ res'.failure = res.failure ∧
      res'.total = res.total := by
  simp only [writeToFileM, hm]
  by_cases hctx : w.ctxCancelled
  · rw [if_pos hctx]
    exact ⟨_, w, res, rfl, hm, rfl, rfl, rfl, rfl, rfl, rfl, rfl, rfl⟩
  · rw [if_neg hctx]
    cases hgf : getFileModeM ms with
    | error e =>
      exact ⟨_, w, _, rfl, hm, rfl, rfl, rfl, rfl, rfl, rfl, rfl, rfl⟩
    | ok u =>
      by_cases hconn : checkConnStatusM w f
      · rw [if_pos hconn]
        cases hwr : os.writeRes f.name k with
        | some e =>
          refine ⟨_, closeInPool w f.name, _, rfl, ?_⟩
          have hcf := closeInPool_fields w f.name
          exact ⟨hcf.1.trans hm, hcf.2.1, hcf.2.2.1, hcf.2.2.2.1, hcf.2.2.2.2.1,
            hcf.2.2.2.2.2, rfl, rfl, rfl⟩
        | none =>
          cases hfl : os.flushRes f.name k with
          | some e =>
            refine ⟨_, closeInPool w f.name, _, rfl, ?_⟩
            have hcf := closeInPool_fields w f.name
            exact ⟨hcf.1.trans hm, hcf.2.1, hcf.2.2.1, hcf.2.2.2.1, hcf.2.2.2.2.1,
              hcf.2.2.2.2.2, rfl, rfl, rfl⟩
          | none =>
            exact ⟨_, w, res, rfl, hm, rfl, rfl, rfl, rfl, rfl, rfl, rfl, rfl⟩
      · rw [if_neg hconn]
        cases hop : os.openFile f.name k with
        | none =>
          exact ⟨_, w, _, rfl, hm, rfl, rfl, rfl, rfl, rfl, rfl, rfl, rfl⟩
        | some nf =>
          cases hwr : os.writeRes f.name k with
          | some e =>
            exact ⟨_, _, _, rfl, rfl, rfl, rfl, rfl, rfl, rfl, rfl, rfl, rfl⟩
          | none =>
            cases hfl : os.flushRes f.name k with
            | some e =>
              exact ⟨_, _, _, rfl, rfl, rfl, rfl, rfl, rfl, rfl, rfl, rfl, rfl⟩
            | none =>
              exact ⟨_, _, res, rfl, rfl, rfl, rfl, rfl, rfl, rfl, rfl, rfl, rfl⟩

theorem processJob_props (os : OSOracle) (retries backoff : Nat) (w : WriterM)
    (res : ResultsM) (file : Option FileH) (ms : String)
    (hm : w.mode = some { mode := some ms }) :
    ∃ w' res', processJob os retries backoff (w, res) file = .ok (w', res') ∧
      w'.mode = w.mode ∧ res'.success + res'.failure = res.success + res.failure + 1 ∧
      res'.total = res.total := by
  cases hgc : getConn w file with
  | error e =>
    simp only [processJob, hgc]
    refine ⟨w, _, rfl, rfl, ?_, rfl⟩
    show res.success + (res.failure + 1) = res.success + res.failure + 1
    omega
  | ok pr =>
    obtain ⟨f, w1⟩ := pr
    simp only [processJob, hgc]
    have hcfg := getConn_config w file f w1 hgc
    have hm1 : w1.mode = some { mode := some ms } := hcfg.2.1.trans hm
    have hf : ∀ k st, (fun (st : WriterM × ResultsM) =>
          st.1.mode = some { mode := some ms } ∧ st.2.success = res.success ∧
          st.2.failure = res.failure ∧ st.2.total = res.total) st →
        ∃ e st', writeToFileM os (some f) k st = .ok (e, st') ∧
          st'.1.mode = some { mode := some ms } ∧ st'.2.success = res.success ∧
          st'.2.failure = res.failure ∧ st'.2.total = res.total := by
      intro k st hP
      obtain ⟨e, w2, res2, heq, hprops⟩ := writeToFileM_props os f k st.1 st.2 ms hP.1
      refine ⟨e, (w2, res2), heq, hprops.1.trans hP.1, ?_, ?_, ?_⟩
      · exact hprops.2.2.2.2.2.2.1.trans hP.2.1
      · exact hprops.2.2.2.2.2.2.2.1.trans hP.2.2.1
      · exact hprops.2.2.2.2.2.2.2.2.trans hP.2.2.2
    obtain ⟨tr, htr, hPtr⟩ := retryGo_invariant _ _ hf retries backoff (w1, res)
      ⟨hm1, rfl, rfl, rfl⟩
    simp only [htr, outcome_bind_ok]
    cases htre : tr.err with
    | some e =>
      simp only [htre]
      refine ⟨tr.state.1, _, rfl, hPtr.1.trans hm.symm, ?_, hPtr.2.2.2⟩
      have h1 := hPtr.2.1
      have h2 := hPtr.2.2.1
      show tr.state.2.success + (tr.state.2.failure + 1)
        = res.success + res.failure + 1
      omega
    | none =>
      simp only [htre]
      refine ⟨tr.state.1, _, rfl, hPtr.1.trans hm.symm, ?_, hPtr.2.2.2⟩
      have h1 := hPtr.2.1
      have h2 := hPtr.2.2.1
      show tr.state.2.success + 1 + tr.state.2.failure
        = res.success + res.failure + 1
      omega

theorem foldJobs_props (os : OSOracle) (retries backoff : Nat) (ms : String) :
    ∀ (jobs : List (Option FileH)) (w : WriterM) (res : ResultsM),
      w.mode = some { mode := some ms } →
      ∃ w' res', jobs.foldlM (processJob os retries backoff) (w, res) = .ok (w', res') ∧
        res'.success + res'.failure = res.success + res.failure + jobs.length ∧
        res'.total = res.total := by
  intro jobs
  induction jobs with
  | nil =>
    intro w res _
    exact ⟨w, res, rfl, by simp, rfl⟩
  | cons file rest ih =>
    intro w res hm
    obtain ⟨w1, res1, hpj, hmode, hsum, htot⟩ :=
      processJob_props os retries backoff w res file ms hm
    rw [List.foldlM_cons, hpj, outcome_bind_ok]
    obtain ⟨w2, res2, hrest, hsum2, htot2⟩ := ih w1 res1 (hmode.trans hm)
    refine ⟨w2, res2, hrest, ?_, htot2.trans htot⟩
    simp only [List.length_cons]
    omega

theorem effBatchSize_pos (len ncpu : Nat) (batchSize : Int) :
    1 ≤ effBatchSize len ncpu batchSize := by
  rw [effBatchSize]
  by_cases h : batchSize ≤ 0
  · rw [if_pos h]
    show 1 ≤ (if len / ncpu = 0 then 1 else len / ncpu)
    split
    · omega
    · rename_i hd
      exact Nat.one_le_iff_ne_zero.mpr hd
  · rw [if_neg h]
    omega

theorem batcherM_flatten {α : Type} (files : List α) (ncpu : Nat) (batchSize : Int) :
    (batcherM files ncpu batchSize).flatten = files := by
  simp only [batcherM]
  exact chunks_flatten _ (effBatchSize_pos files.length ncpu batchSize) files.length files
    le_rfl

/-- C2: for every successful invocation of Write on a validly configured
writer (non-nil files, mode carrying a mode string, non-nil message,
context not already cancelled, non-empty target list), the returned Results
satisfies Success + Failure = Total, and Total is the length of the
writer's target list — including nil entries, and whether or not the
batching path (more than 1000 targets) is taken, since the batches
concatenate back to the full list. -/
theorem write_success_failure_partition (w : WriterM) (mw : Int) (ncpu : Nat)
    (os : OSOracle) (ms : String)
    (hm : w.mode = some { mode := some ms }) (hctx : w.ctxCancelled = false)
    (hfiles : w.files ≠ none) (hmsg : w.message ≠ none)
    (hne : w.files.getD [] ≠ []) :
    ∃ r, WriteM (some w) mw ncpu os = .ok (.ok r) ∧
      r.success + r.failure = r.total ∧ r.total = (w.files.getD []).length := by
  have hfw : fullWriteCheck (some w) = none := by
    rw [fullWriteCheck]
    simp [Option.isNone_iff_eq_none, hfiles, hmsg, hm]
  have hlen0 : ¬((w.files.getD []).length = 0) := by
    intro h
    exact hne (List.eq_nil_of_length_eq_zero h)
  simp only [WriteM, hctx, hfw]
  rw [if_neg hlen0]
  by_cases hbig : 1000 < (w.files.getD []).length
  · rw [if_pos hbig]
    rw [batcherM_flatten (w.files.getD []) ncpu 0]
    obtain ⟨w', res', hfold, hsum, htot⟩ :=
      foldJobs_props os w.retries w.backoff ms (w.files.getD []) w newResultsM hm
    rw [hfold]
    refine ⟨_, rfl, ?_, rfl⟩
    have hs : res'.success + res'.failure = 0 + 0 + (w.files.getD []).length := hsum
    show res'.success + res'.failure = (w.files.getD []).length
    omega
  · rw [if_neg hbig]
    obtain ⟨w', res', hfold, hsum, htot⟩ :=
      foldJobs_props os w.retries w.backoff ms (w.files.getD []) w newResultsM hm
    rw [hfold]
    refine ⟨_, rfl, ?_, rfl⟩
    have hs : res'.success + res'.failure = 0 + 0 + (w.files.getD []).length := hsum
    show res'.success + res'.failure = (w.files.getD []).length
    omega

/-! ### Teardown -/

theorem closeStep_snd (acc : List String × WriterM) (entry : String × FileH) :
    (closeStep acc entry).2 = { acc.2 with pool := eraseA acc.2.pool entry.1,
                                           lastUsed := eraseA acc.2.lastUsed entry.1 } := by
  rw [closeStep]
  split
  · rfl
  · rfl

theorem closeStep_fst_of_not_genuine (acc : List String × WriterM)
    (entry : String × FileH) (h : entry.2.closeRes ≠ CloseRes.genuineErr) :
    (closeStep acc entry).1 = acc.1 := by
  rw [closeStep]
  split
  · rfl
  · cases hcr : entry.2.closeRes with
    | genuineErr => exact absurd hcr h
    | ok => simp [hcr]
    | alreadyClosed => simp [hcr]

theorem closeFold_state :
    ∀ (snapshot : List (String × FileH)) (acc : List String × WriterM),
      ((snapshot.foldl closeStep acc).2).pool
          = (snapshot.map Prod.fst).foldl eraseA acc.2.pool ∧
      ((snapshot.foldl closeStep acc).2).files = acc.2.files := by
  intro snapshot
  induction snapshot with
  | nil => exact fun acc => ⟨rfl, rfl⟩
  | cons p rest ih =>
    intro acc
    rw [List.foldl_cons, List.map_cons, List.foldl_cons]
    have hih := ih (closeStep acc p)
    rw [closeStep_snd] at hih
    exact ⟨hih.1, hih.2⟩

theorem eraseAll (names : List String) :
    ∀ (l : List (String × FileH)), (∀ k ∈ keysA l, k ∈ names) →
      names.foldl eraseA l = [] := by
  induction names with
  | nil =>
    intro l h
    cases l with
    | nil => rfl
    | cons p rest =>
      have hmem : p.1 ∈ ([] : List String) :=
        h p.1 (by rw [keysA_cons]; exact List.mem_cons_self _ _)
      exact absurd hmem (List.not_mem_nil _)
  | cons n ns ih =>
    intro l h
    rw [List.foldl_cons]
    apply ih
    intro k hk
    have h1 := mem_keysA_eraseA l n k hk
    rcases List.mem_cons.mp (h k h1.1) with he | hm
    · exact absurd he h1.2
    · exact hm

theorem closeFold_errs :
    ∀ (snapshot : List (String × FileH)) (acc : List String × WriterM),
      (∀ p ∈ snapshot, p.2.closeRes ≠ CloseRes.genuineErr) →
      (snapshot.foldl closeStep acc).1 = acc.1 := by
  intro snapshot
  induction snapshot with
  | nil => exact fun acc _ => rfl
  | cons p rest ih =>
    intro acc h
    rw [List.foldl_cons]
    rw [ih (closeStep acc p) (fun q hq => h q (List.mem_cons_of_mem _ hq))]
    exact closeStep_fst_of_not_genuine acc p (h p (List.mem_cons_self _ _))

theorem closeAllConnsM_drains (w : WriterM) :
    ((closeAllConnsM w).2).pool = [] ∧ ((closeAllConnsM w).2).files = w.files := by
  have hcf := closeFold_state w.pool ([], w)
  have hdrain : (w.pool.map Prod.fst).foldl eraseA w.pool = [] :=
    eraseAll (keysA w.pool) w.pool (fun k hk => hk)
  rw [closeAllConnsM]
  exact ⟨hcf.1.trans hdrain, hcf.2⟩

theorem closeAllConnsM_noGenuine (w : WriterM)
    (h : ∀ p ∈ w.pool, p.2.closeRes ≠ CloseRes.genuineErr) :
    (closeAllConnsM w).1 = none := by
  rw [closeAllConnsM]
  have he := closeFold_errs w.pool ([], w) h
  simp [he]

theorem factoryResetM_success (w : WriterM) (h : (factoryResetM w).1 = none) :
    ((factoryResetM w).2).pool = [] ∧ ((factoryResetM w).2).lastUsed = [] ∧
    ((factoryResetM w).2).files = some [] := by
  rw [factoryResetM] at h ⊢
  cases hc : closeAllConnsM w with
  | mk fst snd =>
    cases fst with
    | some e =>
      rw [hc] at h
      simp at h
    | none =>
      exact ⟨rfl, rfl, rfl⟩

theorem factoryResetM_error (w : WriterM) (e : String)
    (h : (factoryResetM w).1 = some e) :
    ((factoryResetM w).2).pool = [] ∧ ((factoryResetM w).2).files = w.files := by
  rw [factoryResetM] at h ⊢
  cases hc : closeAllConnsM w with
  | mk fst snd =>
    cases fst with
    | some e' =>
      have hd := closeAllConnsM_drains w
      rw [hc] at hd
      exact hd
    | none =>
      rw [hc] at h
      simp at h

theorem getConn_evicts_lru (w : WriterM) (f : FileH)
    (hkeys : keysA w.pool = keysA w.lastUsed) (hnd : (keysA w.pool).Nodup)
    (hcap : w.maxConns ≤ w.pool.length) (hne : 1 ≤ w.pool.length)
    (hunpooled : lookupA w.pool f.name = none) :
    ∃ o t w', oldestEntry w.lastUsed = some o ∧
      lookupA w.lastUsed o = some t ∧ (∀ p ∈ w.lastUsed, t ≤ p.2) ∧
      getConn w (some f) = .ok (f, w') ∧
      lookupA w'.pool o = none ∧ lookupA w'.pool f.name = some f := by
  have hpne : w.pool ≠ [] := by
    intro he
    rw [he] at hne
    simp at hne
  have hlune : w.lastUsed ≠ [] := by
    intro he
    apply hpne
    rw [he] at hkeys
    cases hp : w.pool with
    | nil => rfl
    | cons p r =>
      rw [hp, keysA_cons] at hkeys
      exact absurd hkeys (by simp [keysA_nil])
  obtain ⟨o, t, ho, homem, hmin⟩ := oldestEntry_spec w.lastUsed hlune
  have hndlu : (keysA w.lastUsed).Nodup := hkeys ▸ hnd
  have hlu : lookupA w.lastUsed o = some t := lookupA_of_mem_nodup _ _ _ hndlu homem
  have hfn : f.name ∉ keysA w.pool := (lookupA_eq_none _ _).mp hunpooled
  have homemk : o ∈ keysA w.pool := by
    rw [hkeys]
    exact mem_keysA_of_mem (p := (o, t)) homem
  have hos : (lookupA w.pool o).isSome := (lookupA_isSome _ _).mpr homemk
  have honef : o ≠ f.name := fun he => hfn (he ▸ homemk)
  have hfe : f.name ∉ keysA (eraseA w.pool o) := fun hm => hfn (mem_keysA_eraseA _ _ _ hm).1
  have hadmit2 : (getConnAdmit w f).2.pool = eraseA w.pool o ++ [(f.name, f)] := by
    simp only [getConnAdmit, ho]
    rw [if_pos hcap, if_pos hos]
    simp only
    exact storeA_of_not_mem _ _ _ hfe
  refine ⟨o, t, (getConnAdmit w f).2, ho, hlu, hmin, ?_, ?_, ?_⟩
  · simp only [getConn, hunpooled]
    exact congrArg Except.ok (Prod.ext (getConnAdmit_fst w f) rfl)
  · rw [hadmit2, lookupA_append_of_none _ _ _ (lookupA_eraseA_self _ _)]
    simp only [lookupA]
    rw [if_neg (Ne.symm honef)]
  · rw [hadmit2, lookupA_append_of_none _ _ _ ((lookupA_eq_none _ _).mpr hfe)]
    simp [lookupA]

/-! ### Claim theorems -/

/-- C2 witness: the partition law evaluated on a concrete writer with two
live targets and one nil entry. -/
theorem write_success_failure_partition_witness :
    ∃ r, WriteM (some exWriter) 2 4 osAllOK = .ok (.ok r) ∧
      r.success + r.failure = r.total ∧
      r.total = (exWriter.files.getD []).length :=
  write_success_failure_partition exWriter 2 4 osAllOK "a" rfl rfl
    (by simp [exWriter]) (by simp [exWriter]) (by simp [exWriter])

/-- C1: the claim says Write returns a non-nil error whenever a
precondition is violated, the nil writer included.  In the source the entry
`select` on `w.ctx.Done()` dereferences the receiver before
`fullWriteCheck`'s `w == nil` guard can run, so a nil writer crashes with a
nil-pointer panic instead of returning the "writer is nil" error that
`fullWriteCheck` (and Write's own documentation) promise: the code
contradicts its own guard. -/
theorem write_nil_receiver_crashes :
    WriteM none 1 4 osAllOK
        = .crash "runtime error: invalid memory address or nil pointer dereference" ∧
    fullWriteCheck none = some "writer is nil" :=
  ⟨rfl, rfl⟩

/-- C3: with retries = 0 the operation runs exactly once and its raw error
(or nil) is returned; with retries = R ≥ 1 and an always-failing operation
it runs exactly R times and the wrapper returns an error wrapping the last
failure; and whenever the first success happens at attempt j < R the
wrapper stops there with nil after j+1 invocations. -/
theorem retry_invocation_counts {σ : Type} (g : Nat → σ → Option String × σ)
    (s : σ) (R b j : Nat) :
    ((runRetry 0 b g s).calls = 1 ∧ (runRetry 0 b g s).err = (g 0 s).1) ∧
    ((∀ k t, ((g k t).1).isSome) → 1 ≤ R → (runRetry R b g s).calls = R ∧
      ∃ e, (runRetry R b g s).err = some ("exhausted retries: last error: " ++ e)) ∧
    ((∀ a t, a < j → ((g a t).1).isSome) → (∀ t, (g j t).1 = none) → j < R →
      (runRetry R b g s).calls = j + 1 ∧ (runRetry R b g s).err = none) := by
  refine ⟨⟨rfl, rfl⟩, ?_, ?_⟩
  · intro hf hR
    obtain ⟨hc, he, _⟩ := runRetry_allFail g s R b hf hR
    exact ⟨hc, he⟩
  · intro hfail hsucc hj
    exact runRetry_firstSuccess g s R b j hfail hsucc hj

/-- C3 witness: the three retry laws evaluated on concrete operations. -/
theorem retry_invocation_counts_witness :
    ((runRetry 0 7 opFail ()).calls = 1 ∧
      (runRetry 0 7 opFail ()).err = (opFail 0 ()).1) ∧
    ((runRetry 3 7 opFail ()).calls = 3 ∧
      ∃ e, (runRetry 3 7 opFail ()).err
        = some ("exhausted retries: last error: " ++ e)) ∧
    ((runRetry 5 7 opThirdTime ()).calls = 2 + 1 ∧
      (runRetry 5 7 opThirdTime ()).err = none) :=
  ⟨(retry_invocation_counts opFail () 3 7 0).1,
   (retry_invocation_counts opFail () 3 7 0).2.1 (fun _ _ => rfl) (by omega),
   (retry_invocation_counts opThirdTime () 5 7 2).2.2
     (fun a t ha => by simp [opThirdTime, ha])
     (fun t => by simp [opThirdTime])
     (by omega)⟩

/-- C4 counterexample: with base backoff 600 ms and an always-failing
operation, the delay slept between attempt 1 and attempt 2 is 1200 ms,
whereas the claim predicts min(600·2¹, 1000) = 1000 ms; in particular a
single inter-attempt delay does exceed 1000 ms. -/
theorem retry_backoff_cap_counterexample :
    (runRetry 3 600 opFail ()).delays = [600, 1200] ∧
    min (600 * 2 ^ 1) 1000 = 1000 ∧
    ¬((runRetry 3 600 opFail ()).delays.getD 1 0 ≤ 1000) :=
  ⟨rfl, rfl, by decide⟩

/-- C4 amended: the backoff is doubled only while it is still below
1000 ms, so the delay before retry i+1 is the i-th iterate of that step
from the base (base·2^i until the previous value reached 1000 ms, then
frozen); consequently each single delay is bounded by max(base, 1998) ms
rather than 1000 ms. -/
theorem retry_backoff_delay_law {σ : Type} (g : Nat → σ → Option String × σ)
    (s : σ) (R base : Nat) (hf : ∀ k t, ((g k t).1).isSome) (hR : 1 ≤ R) :
    (runRetry R base g s).delays
        = (List.range (R - 1)).map (fun i => backoffStep^[i] base) ∧
    ∀ d ∈ (runRetry R base g s).delays, d ≤ max base 1998 := by
  obtain ⟨_, _, hd⟩ := runRetry_allFail g s R base hf hR
  refine ⟨hd, ?_⟩
  intro d hdm
  rw [hd] at hdm
  obtain ⟨i, _, rfl⟩ := List.mem_map.mp hdm
  exact backoffStep_iterate_le base i

/-- C4 witness: the amended backoff law evaluated at base 300 ms. -/
theorem retry_backoff_delay_law_witness :
    (runRetry 4 300 opFail ()).delays
        = (List.range 3).map (fun i => backoffStep^[i] 300) ∧
    ∀ d ∈ (runRetry 4 300 opFail ()).delays, d ≤ max 300 1998 :=
  retry_backoff_delay_law opFail () 4 300 (fun _ _ => rfl) (by omega)

/-- C5 counterexample: with capacity maxConns = 0 a single acquisition
leaves one entry in the pool, exceeding the claimed bound. -/
theorem pool_capacity_zero_counterexample :
    (runGetConns (freshWriter 0) [some exFileA]).pool.length = 1 ∧
    (freshWriter 0).maxConns = 0 ∧
    ¬((runGetConns (freshWriter 0) [some exFileA]).pool.length
        ≤ (freshWriter 0).maxConns) :=
  ⟨rfl, rfl, by decide⟩

/-- C5 amended: for every capacity maxConns ≥ 1 and every sequence of
sequential GetConn acquisitions on a fresh writer the pool never holds
more than maxConns entries; and whenever an acquisition of an unpooled
target finds the pool at capacity (with the pool and last-used maps in
their invariant state), the entry evicted is one carrying the minimal
last-used timestamp, and it is gone from the pool afterwards while the new
target is admitted. -/
theorem pool_bound_and_lru_eviction :
    (∀ (mc : Nat), 1 ≤ mc → ∀ (inputs : List (Option FileH)),
      (runGetConns (freshWriter mc) inputs).pool.length ≤ mc) ∧
    (∀ (w : WriterM) (f : FileH),
      keysA w.pool = keysA w.lastUsed → (keysA w.pool).Nodup →
      w.maxConns ≤ w.pool.length → 1 ≤ w.pool.length →
      lookupA w.pool f.name = none →
      ∃ o t w', oldestEntry w.lastUsed = some o ∧
        lookupA w.lastUsed o = some t ∧ (∀ p ∈ w.lastUsed, t ≤ p.2) ∧
        getConn w (some f) = .ok (f, w') ∧
        lookupA w'.pool o = none ∧ lookupA w'.pool f.name = some f) := by
  constructor
  · intro mc hmc inputs
    have h := runGetConns_inv inputs (freshWriter mc) hmc
      ⟨rfl, List.nodup_nil, Nat.zero_le mc⟩
    have hb := h.1.2.2
    rwa [h.2] at hb
  · intro w f hkeys hnd hcap hne hunpooled
    exact getConn_evicts_lru w f hkeys hnd hcap hne hunpooled

/-- C5 witness: the bound at capacity 1 over two acquisitions, and the LRU
eviction on a concrete full pool. -/
theorem pool_bound_and_lru_eviction_witness :
    (runGetConns (freshWriter 1) [some exFileA, some exFileB]).pool.length ≤ 1 ∧
    (∃ o t w', oldestEntry exPoolWriter.lastUsed = some o ∧
      lookupA exPoolWriter.lastUsed o = some t ∧
      (∀ p ∈ exPoolWriter.lastUsed, t ≤ p.2) ∧
      getConn exPoolWriter (some exFileB) = .ok (exFileB, w') ∧
      lookupA w'.pool o = none ∧ lookupA w'.pool exFileB.name = some exFileB) :=
  ⟨pool_bound_and_lru_eviction.1 1 (by omega) [some exFileA, some exFileB],
   pool_bound_and_lru_eviction.2 exPoolWriter exFileB rfl (by decide) (by decide)
     (by decide) rfl⟩

/-- C6: the claim says a map missing a required key yields a construction
error, never a crash.  In the source `validateMap` only type-checks the
keys that are present (it accepts the empty map), after which
`NewWriterFromMap` runs unchecked type assertions on every required key; a
missing key makes the indexed value a nil interface and the assertion
panics, contradicting the function's own documentation ("If the map does
not contain all the required keys ... an error is returned").  The other
parts of the claim hold: unknown keys and type mismatches are errors, and
a complete well-typed map yields a writer carrying exactly those values. -/
theorem newWriterFromMap_missing_keys_crash :
    validateMapM (some []) = none ∧
    NewWriterFromMapM (some [])
        = .crash "interface conversion on missing or mistyped key" ∧
    validateMapM (some [("bogus", ConfigVal.u64 3)]) = some ("unknown key: " ++ "bogus") ∧
    validateMapM (some [("files", ConfigVal.u64 3)]) = some "files is not a []*os.File" ∧
    NewWriterFromMapM (some exGoodConfig) = .ok (.ok exWriterFromMap) :=
  ⟨rfl, rfl, rfl, rfl, rfl⟩

/-- C7: for every non-empty file list and every batch size, the batches
are contiguous slices whose concatenation is the original list, at least
one batch is produced, every batch has length at most the effective batch
size, every batch except possibly the last has exactly that length, and a
non-positive requested size defaults to len/numCPU floored to 1. -/
theorem batcher_partition_spec {α : Type} (files : List α) (ncpu : Nat)
    (batchSize : Int) (hne : files ≠ []) :
    (batcherM files ncpu batchSize).flatten = files ∧
    1 ≤ (batcherM files ncpu batchSize).length ∧
    (∀ b ∈ batcherM files ncpu batchSize,
      b.length ≤ effBatchSize files.length ncpu batchSize) ∧
    (∀ i, i + 1 < (batcherM files ncpu batchSize).length →
      ((batcherM files ncpu batchSize).getD i []).length
        = effBatchSize files.length ncpu batchSize) ∧
    (batchSize ≤ 0 →
      effBatchSize files.length ncpu batchSize = max (files.length / ncpu) 1) := by
  have hbs := effBatchSize_pos files.length ncpu batchSize
  have hlen : (batcherM files ncpu batchSize).length
      = (files.length + effBatchSize files.length ncpu batchSize - 1)
        / effBatchSize files.length ncpu batchSize := by
    simp [batcherM]
  refine ⟨batcherM_flatten files ncpu batchSize, ?_, ?_, ?_, ?_⟩
  · rw [hlen]
    rw [Nat.one_le_div_iff (by omega)]
    have : 1 ≤ files.length := List.length_pos.mpr hne
    omega
  · intro b hb
    simp only [batcherM, List.mem_map] at hb
    obtain ⟨i, _, rfl⟩ := hb
    exact le_trans (List.length_take_le _ _) le_rfl
  · intro i hi
    rw [hlen] at hi
    have := chunks_batch_len (effBatchSize files.length ncpu batchSize) files i hbs hi
    simp only [batcherM]
    rw [map_range_getD _ _ _ _ (by omega)]
    exact this
  · intro hle
    rw [effBatchSize, if_pos hle]
    simp only
    split
    · rename_i hd
      rw [hd]
      omega
    · rename_i hd
      have : 1 ≤ files.length / ncpu := Nat.one_le_iff_ne_zero.mpr hd
      omega

/-- C7 witness: the batching laws evaluated on a five-element list with
batch size 2. -/
theorem batcher_partition_spec_witness :
    (batcherM [1, 2, 3, 4, 5] 2 2).flatten = [1, 2, 3, 4, 5] ∧
    1 ≤ (batcherM [1, 2, 3, 4, 5] 2 2).length ∧
    (∀ b ∈ batcherM [1, 2, 3, 4, 5] 2 2,
      b.length ≤ effBatchSize 5 2 2) ∧
    (∀ i, i + 1 < (batcherM [1, 2, 3, 4, 5] 2 2).length →
      ((batcherM [1, 2, 3, 4, 5] 2 2).getD i []).length = effBatchSize 5 2 2) ∧
    ((2 : Int) ≤ 0 → effBatchSize 5 2 2 = max (5 / 2) 1) :=
  batcher_partition_spec [1, 2, 3, 4, 5] 2 2 (by decide)

/-- C9 counterexample: on a writer whose single pooled handle genuinely
fails to close, FactoryReset returns the combined close error and leaves
the target file list untouched (non-empty), contradicting the claim that
the list is emptied whether or not an error is returned. -/
theorem factoryReset_error_keeps_files :
    (factoryResetM exResetWriter).1 = some "multiple errors closing files" ∧
    ((factoryResetM exResetWriter).2).files = some [some exFileA] ∧
    ((factoryResetM exResetWriter).2).files ≠ some [] :=
  ⟨rfl, rfl, by decide⟩

/-- C9 amended: when FactoryReset returns nil, the pool, the last-used
index and the target list are all empty; when CloseAllConns reports a
genuine close failure, FactoryReset returns that error with the pool fully
drained but without clearing the target file list; and a pool with no
genuinely failing closes (already-closed handles included) never produces
an error. -/
theorem factoryReset_teardown (w : WriterM) :
    ((factoryResetM w).1 = none →
      ((factoryResetM w).2).pool = [] ∧ ((factoryResetM w).2).lastUsed = [] ∧
      ((factoryResetM w).2).files = some []) ∧
    (∀ e, (factoryResetM w).1 = some e →
      ((factoryResetM w).2).pool = [] ∧ ((factoryResetM w).2).files = w.files) ∧
    ((∀ p ∈ w.pool, p.2.closeRes ≠ CloseRes.genuineErr) →
      (factoryResetM w).1 = none) := by
  refine ⟨factoryResetM_success w, fun e he => factoryResetM_error w e he, ?_⟩
  intro h
  have hng := closeAllConnsM_noGenuine w h
  rw [factoryResetM]
  cases hc : closeAllConnsM w with
  | mk fst snd =>
    rw [hc] at hng
    cases fst with
    | some e => exact absurd hng (by simp)
    | none => rfl

/-- C9 witness: full teardown on a writer whose pooled handle is already
closed, and the drained-but-files-kept outcome on a genuine close
failure. -/
theorem factoryReset_teardown_witness :
    (factoryResetM exResetOkWriter).1 = none ∧
    ((factoryResetM exResetOkWriter).2).pool = [] ∧
    ((factoryResetM exResetOkWriter).2).lastUsed = [] ∧
    ((factoryResetM exResetOkWriter).2).files = some [] ∧
    ((factoryResetM exResetWriter).2).pool = [] ∧
    ((factoryResetM exResetWriter).2).files = exResetWriter.files := by
  have h3 := (factoryReset_teardown exResetOkWriter).2.2 (by decide)
  have h1 := (factoryReset_teardown exResetOkWriter).1 h3
  have h2 := (factoryReset_teardown exResetWriter).2.1
    "multiple errors closing files" rfl
  exact ⟨h3, h1.1, h1.2.1, h1.2.2, h2.1, h2.2⟩

/-- C10: GetConn returns a non-nil error exactly when its file argument is
nil; for every non-nil file it returns a handle with nil error, and when a
live pooled handle exists under the file's name that pooled handle is the
one returned.  Hence the acquisition-failure branch in Write is reachable
only for nil entries of the target list. -/
theorem getConn_error_iff_nil :
    (∀ (w : WriterM) (file : Option FileH),
      (∃ e, getConn w file = .error e) ↔ file = none) ∧
    (∀ (w : WriterM) (f g : FileH), lookupA w.pool f.name = some g → g.statOk →
      ∃ w', getConn w (some f) = .ok (g, w')) := by
  constructor
  · intro w file
    constructor
    · rintro ⟨e, he⟩
      cases file with
      | none => rfl
      | some f =>
        exfalso
        simp only [getConn] at he
        cases hl : lookupA w.pool f.name with
        | none =>
          rw [hl] at he
          simp only at he
          exact Except.noConfusion he
        | some g0 =>
          rw [hl] at he
          simp only at he
          by_cases hst : g0.statOk
          · rw [if_pos hst] at he
            exact Except.noConfusion he
          · rw [if_neg hst] at he
            exact Except.noConfusion he
    · rintro rfl
      exact ⟨_, rfl⟩
  · intro w f g hl hst
    refine ⟨{ w with lastUsed := storeA w.lastUsed f.name w.clock,
                     clock := w.clock + 1 }, ?_⟩
    simp only [getConn, hl]
    rw [if_pos hst]

/-- C10 witness: the pooled live handle on "a" is returned for a non-nil
acquisition. -/
theorem getConn_error_iff_nil_witness :
    ∃ w', getConn exPoolWriter (some exFileA) = .ok (exFileA, w') :=
  getConn_error_iff_nil.2 exPoolWriter exFileA exFileA rfl rfl

end JrWriter
